import Mathlib

/-!
Verification of the karaoke-script lyric converter (`lyric_processor.py`).

The Python strings are modelled as `List Char`.  Python's `\s` character
class and `str.strip()` are modelled over their ASCII part
(space, tab, newline, carriage return, vertical tab, form feed); none of
the properties below involve non-ASCII whitespace.  Regular-expression
searches in the source are simple enough to be deterministic
(`\s*` never needs to backtrack because the character that follows it is
never a whitespace character, and `(.*?)` is a shortest-match scan), so
they are embedded as direct scanning functions.
-/

namespace LyricConv

set_option maxRecDepth 8000

abbrev Str := List Char

/-- The single-quote character, one of the two quote characters of the format. -/
def sq : Char := '\''

/-- The double-quote character. -/
def dq : Char := '"'

/-- ASCII part of Python's whitespace class (`\s`, `str.strip`). -/
def isPySpace (c : Char) : Bool :=
  c == ' ' || c == '\t' || c == '\n' || c == '\r' || c == Char.ofNat 11 || c == Char.ofNat 12

/-- Remove trailing whitespace (the right half of Python `str.strip()`). -/
def dropTrailWS (l : Str) : Str :=
  (l.reverse.dropWhile isPySpace).reverse

/-- Python `str.strip()`. -/
def pyStrip (l : Str) : Str :=
  dropTrailWS (l.dropWhile isPySpace)

/-- Python `s.replace(qq, q)` for a pattern of two identical characters
`q`: left-to-right, non-overlapping replacement of each doubled `c` by a
single `c`. -/
def replacePairs (c : Char) : Str → Str
  | [] => []
  | [a] => [a]
  | a :: b :: r =>
    if a == c && b == c then c :: replacePairs c r
    else a :: replacePairs c (b :: r)

/-- Encoding direction of the doubled-quote escape: each occurrence of `c`
is doubled (this is how a literal quote is written inside a `c`-quoted
field). -/
def doubleQuote (c : Char) : Str → Str
  | [] => []
  | a :: r => if a == c then c :: c :: doubleQuote c r else a :: doubleQuote c r

/-- `true` when the string has no two adjacent occurrences of `c`. -/
def noDoubled (c : Char) : Str → Bool
  | [] => true
  | [_] => true
  | a :: b :: r => !(a == c && b == c) && noDoubled c (b :: r)

/-- Python `s.rfind(c)` (single-character needle): index of the last
occurrence, `none` for Python's `-1`. -/
def rfindIdx (c : Char) : Str → Option Nat
  | [] => none
  | x :: xs =>
    match rfindIdx c xs with
    | some i => some (i + 1)
    | none => if x == c then some 0 else none

/-- Python `max` over two `rfind` results, where `none` plays `-1`. -/
def combineMax : Option Nat → Option Nat → Option Nat
  | none, b => b
  | some a, none => some a
  | some a, some b => some (max a b)

/-- The comma-collecting loop of `_extract_third_param` (lines 131-160 of
`lyric_processor.py`): walk the parameter string left to right keeping an
in-quotes flag, treat a doubled quote character inside a quoted region as
an escaped literal, record the indices of commas that lie outside quotes,
and stop as soon as two have been recorded. -/
def scanCommas : Str → Bool → Option Char → Nat → List Nat → List Nat
  | [], _, _, _, acc => acc
  | c :: rest, inq, qc, i, acc =>
    if c == sq || c == dq then
      if !inq then scanCommas rest true (some c) (i + 1) acc
      else if qc == some c then
        if rest.head? == some c then
          match rest with
          | _ :: rest2 => scanCommas rest2 true qc (i + 2) acc
          | [] => acc
        else scanCommas rest false none (i + 1) acc
      else scanCommas rest inq qc (i + 1) acc
    else if c == ',' && !inq then
      let acc2 := acc ++ [i]
      if 2 ≤ acc2.length then acc2 else scanCommas rest inq qc (i + 1) acc2
    else scanCommas rest inq qc (i + 1) acc
termination_by structural l => l

/-- The state machine of `_extract_third_param_fallback` (lines 226-268):
split the parameter string at commas that lie outside quotes, keeping
quoted regions (with doubled-quote escapes) intact, stripping each field,
and dropping a final field that is empty after stripping. -/
def splitParams : Str → Bool → Option Char → Str → List Str → List Str
  | [], _, _, cur, acc =>
    if (pyStrip cur).isEmpty then acc else acc ++ [pyStrip cur]
  | c :: rest, inq, qc, cur, acc =>
    if c == sq || c == dq then
      if !inq then splitParams rest true (some c) (cur ++ [c]) acc
      else if qc == some c then
        if rest.head? == some c then
          match rest with
          | _ :: rest2 => splitParams rest2 true qc (cur ++ [c, c]) acc
          | [] => acc
        else splitParams rest false none (cur ++ [c]) acc
      else splitParams rest inq qc (cur ++ [c]) acc
    else if c == ',' && !inq then
      splitParams rest inq qc [] (acc ++ [pyStrip cur])
    else splitParams rest inq qc (cur ++ [c]) acc
termination_by structural l => l

/-- `_extract_third_param_fallback` (lines 215-281): split the fields with
the state machine, take the third, strip it, and when it begins and ends
with the same quote character drop that outer pair and collapse doubled
quotes of both kinds (`''` first, then `""`). -/
def extractFallback (s : Str) : Str :=
  match splitParams s false none [] [] with
  | _ :: _ :: third :: _ =>
    let t := pyStrip third
    if (t.head? == some sq && t.getLast? == some sq)
        || (t.head? == some dq && t.getLast? == some dq) then
      replacePairs dq (replacePairs sq ((t.drop 1).dropLast))
    else t
  | _ => []

/-- The unquoting step of `_extract_third_param` (lines 197-209): when the
candidate field has length at least two and begins and ends with the same
quote character, drop the outer pair and collapse doubled quotes of that
one kind; otherwise return the candidate unchanged. -/
def unquoteWith (l : Str) : Str :=
  if 2 ≤ l.length
      && ((l.head? == some sq && l.getLast? == some sq)
          || (l.head? == some dq && l.getLast? == some dq)) then
    let inner := (l.drop 1).dropLast
    if l.head? == some sq then replacePairs sq inner else replacePairs dq inner
  else l

/-- `_extract_third_param` (lines 109-213): strip the parameter string,
find the first two commas outside quotes, strip what follows the second
one, then from the right locate the id field (last quote character, its
matching opening quote, the comma before it); what stands before that
comma, stripped and unquoted, is the lyric.  Every failure falls back to
`extractFallback` on the stripped parameter string. -/
def extractThird (s0 : Str) : Str :=
  let s := pyStrip s0
  if s.isEmpty then [] else
  match scanCommas s false none 0 [] with
  | _ :: c2 :: _ =>
    let remaining := pyStrip (s.drop (c2 + 1))
    match combineMax (rfindIdx sq remaining) (rfindIdx dq remaining) with
    | none => extractFallback s
    | some lq =>
      let qch := remaining.getD lq ' '
      match rfindIdx qch (remaining.take lq) with
      | none => extractFallback s
      | some nsq =>
        match rfindIdx ',' (remaining.take nsq) with
        | none => extractFallback s
        | some cb => unquoteWith (pyStrip (remaining.take cb))
  | _ => extractFallback s

/-- Literal-head match: `dropKey pat l` is the remainder of `l` after the
literal pattern `pat`, `none` when `pat` is not an initial segment of `l`. -/
def dropKey : Str → Str → Option Str
  | [], l => some l
  | _ :: _, [] => none
  | p :: ps, c :: cs => if c == p then dropKey ps cs else none

/-- Substring test (Python `pat in l`). -/
def containsSub (pat : Str) : Str → Bool
  | [] => (dropKey pat []).isSome
  | l@(_ :: rest) => (dropKey pat l).isSome || containsSub pat rest

/-- Split at the first occurrence of the literal `pat`: the part before it
and the part after it (the shortest-match step of the statement regex). -/
def splitAtSub (pat : Str) : Str → Option (Str × Str)
  | [] => none
  | l@(c :: rest) =>
    match dropKey pat l with
    | some after => some ([], after)
    | none =>
      match splitAtSub pat rest with
      | some (b, a) => some (c :: b, a)
      | none => none

/-- Split at the first occurrence of the character `t`. -/
def splitAtChar (t : Char) : Str → Option (Str × Str)
  | [] => none
  | c :: rest =>
    if c == t then some ([], rest)
    else
      match splitAtChar t rest with
      | some (b, a) => some (c :: b, a)
      | none => none

/-- The literal `karaoke.add` of the statement pattern. -/
def addKey : Str := ("karaoke.add").data

/-- The closing delimiter of a statement. -/
def closeKey : Str := (");").data

/-- One attempted match of `karaoke\.add\s*\((.*?)\);` at the head of `l`
(`re.DOTALL`): the literal key, maximal whitespace, an opening
parenthesis, then the shortest run of arbitrary characters up to the next
close-parenthesis-semicolon.  Returns the captured parameter text and the
remainder after the delimiter. -/
def tryAdd (l : Str) : Option (Str × Str) :=
  match dropKey addKey l with
  | none => none
  | some r1 =>
    match r1.dropWhile isPySpace with
    | c :: r2 => if c == '(' then splitAtSub closeKey r2 else none
    | [] => none

/-- `re.findall` of the statement pattern: scan left to right, at each
position attempt a match; on success capture and resume after the
consumed text (non-overlapping), on failure advance one character.
`fuel` bounds the recursion; every step consumes at least one character,
so `l.length` fuel is always enough. -/
def findAddsAux : Nat → Str → List Str
  | 0, _ => []
  | _ + 1, [] => []
  | fuel + 1, l@(_ :: rest) =>
    match tryAdd l with
    | some (cap, rest2) => cap :: findAddsAux fuel rest2
    | none => findAddsAux fuel rest

/-- All raw statement bodies of the document, in source order
(`parse_content` lines 92-93). -/
def findAdds (l : Str) : List Str := findAddsAux l.length l

/-- The shortest-match scan of `(.*?)['\"]` without `re.DOTALL`: collect
characters up to the first quote character of either kind, failing on a
newline (which `.` does not match). -/
def takeToQuote : Str → Option Str
  | [] => none
  | c :: rest =>
    if c == sq || c == dq then some []
    else if c == '\n' then none
    else
      match takeToQuote rest with
      | some t => some (c :: t)
      | none => none

/-- One attempted match of `<key>\s*:=\s*['\"](.*?)['\"]` at the head of
`l`: the literal key, maximal whitespace, `:=`, maximal whitespace, one
quote character of either kind, then the shortest run of non-newline
characters up to the next quote character of either kind (the capture). -/
def metaAt (key : Str) (l : Str) : Option Str :=
  match dropKey key l with
  | none => none
  | some r1 =>
    match dropKey ([':', '=']) (r1.dropWhile isPySpace) with
    | none => none
    | some r3 =>
      match r3.dropWhile isPySpace with
      | [] => none
      | c :: r5 => if c == sq || c == dq then takeToQuote r5 else none

/-- `re.search` of the metadata pattern: the first position (left to
right) at which `metaAt` succeeds wins (`parse_content` lines 80-87). -/
def searchMeta (key : Str) : Str → Option Str
  | [] => metaAt key []
  | l@(_ :: rest) =>
    match metaAt key l with
    | some r => some r
    | none => searchMeta key rest

/-- The literal `karaoke.songname` of the song-name pattern. -/
def snKey : Str := ("karaoke.songname").data

/-- The literal `karaoke.singer` of the singer pattern. -/
def sgKey : Str := ("karaoke.singer").data

/-- Specification-side reading of first-match-wins: among all start
positions in order, the first whose attempt succeeds provides the
captured value. -/
def firstMetaHit (key : Str) (l : Str) : Option Str :=
  ((List.range (l.length + 1)).filterMap fun p => metaAt key (l.drop p)).head?

/-- `re.sub(r'\[([^\]]*)\]', r'\1', text)`: each occurrence of an opening
bracket with a closing bracket somewhere after it is replaced by the text
between them (which may itself contain opening brackets but no closing
one); scanning resumes after the closing bracket.  Fuel as in
`findAddsAux`. -/
def removeBracketsAux : Nat → Str → Str
  | 0, l => l
  | _ + 1, [] => []
  | fuel + 1, c :: rest =>
    if c == '[' then
      match splitAtChar ']' rest with
      | some (content, after) => content ++ removeBracketsAux fuel after
      | none => c :: removeBracketsAux fuel rest
    else c :: removeBracketsAux fuel rest

/-- Bracket stripping of `_clean_lyric` (line 294). -/
def removeBrackets (l : Str) : Str := removeBracketsAux l.length l

/-- `re.sub(r'\s+', ' ', text)`: every maximal run of whitespace becomes
a single space.  The flag records whether the previous character belonged
to a whitespace run whose space has already been emitted. -/
def collapseAux : Bool → Str → Str
  | _, [] => []
  | prev, c :: rest =>
    if isPySpace c then
      if prev then collapseAux true rest else ' ' :: collapseAux true rest
    else c :: collapseAux false rest

/-- `re.sub(r'\s+', ' ', text)` on a whole string. -/
def collapseWS (l : Str) : Str := collapseAux false l

/-- `_clean_lyric` (lines 283-299): strip brackets, collapse whitespace
runs, trim the ends. -/
def cleanLyric (t : Str) : Str := pyStrip (collapseWS (removeBrackets t))

/-- The parsed document: the mutable state of `LyricProcessor` after
`parse_content`, as an immutable value. -/
structure LyricDoc where
  songname : Option Str
  singer : Option Str
  lyrics : List Str
deriving DecidableEq

/-- The statement loop of `parse_content` (lines 95-102): extract the
third parameter of each statement; a statement whose extraction is empty,
or whose cleaned text is empty, appends nothing. -/
def addLoop : List Str → List Str
  | [] => []
  | p :: rest =>
    let t := extractThird p
    if t.isEmpty then addLoop rest
    else
      let c := cleanLyric t
      if c.isEmpty then addLoop rest else c :: addLoop rest

/-- What one raw statement contributes to `lines`, as an `Option`
(specification-side form of the loop body). -/
def lyricOf (p : Str) : Option Str :=
  let t := extractThird p
  if t.isEmpty then none
  else
    let c := cleanLyric t
    if c.isEmpty then none else some c

/-- `parse_content` (lines 64-107).  No statement of its body can raise,
so the `except` branch is unreachable and the function is total; the
Python return value is always `True`. -/
def parseContent (content : Str) : LyricDoc :=
  { songname := searchMeta snKey content
    singer := searchMeta sgKey content
    lyrics := addLoop (findAdds content) }

/-- Python truthiness of an optional string field (`self.songname or
self.singer`): present and non-empty. -/
def optTruthy : Option Str → Bool
  | some s => !s.isEmpty
  | none => false

/-- The value of an optional field (only used under `optTruthy`). -/
def optVal : Option Str → Str
  | some s => s
  | none => []

/-- `to_text` (lines 301-336): optional `# name - singer` header built
from the truthy fields, then either one space-joined line of lyrics or
one line per lyric, all joined by newlines. -/
def toText (d : LyricDoc) (includeHeader singleLine : Bool) : Str :=
  let base : List Str :=
    if includeHeader && (optTruthy d.songname || optTruthy d.singer) then
      let parts := (if optTruthy d.songname then [optVal d.songname] else [])
        ++ (if optTruthy d.singer then [optVal d.singer] else [])
      ['#' :: ' ' :: List.intercalate ((" - ").data) parts]
    else []
  let allLines : List Str :=
    if singleLine then
      let joined := List.intercalate ([' ']) d.lyrics
      if base.isEmpty then [joined] else base ++ [joined]
    else base ++ d.lyrics
  List.intercalate (['\n']) allLines

/-- Wrap a string in a given quote character. -/
def wrapQ (q : Char) (s : Str) : Str := q :: s ++ [q]

/-- A well-formed lyric field: the decoded text `s` with every occurrence
of the enclosing quote character doubled, wrapped in that character. -/
def encField (q : Char) (s : Str) : Str := wrapQ q (doubleQuote q s)

/-- A well-formed `karaoke.add` parameter string
`<t1>, <t2>, <lyric>, <id>`: the timestamps and the id quoted in `qa`,
`qb`, `qd`, the lyric field the encoding of `s` in `q`, the fields
separated by a comma and a space. -/
def mkParams (qa qb qd q : Char) (t1 t2 idc s : Str) : Str :=
  wrapQ qa t1 ++ ',' :: ' ' :: (wrapQ qb t2 ++ ',' :: ' ' ::
    (encField q s ++ ',' :: ' ' :: wrapQ qd idc))

/-- A timestamp or id payload: no quote characters and no commas. -/
def fieldClean (t : Str) : Bool :=
  t.all fun c => !(c == sq || c == dq || c == ',')

/-- The quote character of the other kind. -/
def otherQuote (q : Char) : Char := if q == sq then dq else sq

/-- Every whitespace character of the string is a plain space. -/
def wsOnlySpace (l : Str) : Bool := l.all fun c => !isPySpace c || c == ' '

/-- A well-formed parameter string whose lyric field contains a doubled
occurrence of the non-enclosing quote character. -/
def exBad : Str := ("'00:00.000', '00:01.000', 'a\"\"b', '1'").data

/-- A document whose first statement is missing the closing quote of its
third field, followed by a well-formed statement. -/
def exC3 : Str :=
  ("karaoke.add('00:00.000', '00:01.000', 'text, '1');\n" ++
   "karaoke.add('00:02.000', '00:03.000', 'next', '2');").data

/-- A document whose first lyric payload contains the literal `);`. -/
def exC4 : Str :=
  ("karaoke.add('a', 'b', 'x);', '1'); karaoke.add('c', 'd', 'y', '2');").data

/-- Three statements with distinct payloads, in source order. -/
def exC5 : Str :=
  ("karaoke.add('a','b','one','1'); karaoke.add('c','d','two','2'); " ++
   "karaoke.add('e','f','three','3');").data

/-- Two song-name declarations: the first one must win. -/
def exC6 : Str := ("karaoke.songname := 'First'; karaoke.songname := 'Second';").data

/-- The end-to-end scenario document of the specification. -/
def exC8 : Str :=
  ("karaoke.songname := 'Title';\nkaraoke.singer := 'Artist';\n" ++
   "karaoke.add('00:00.000', '00:02.000', '[Hello] world', '1');\n" ++
   "karaoke.add('00:02.000', '00:04.000', 'it''s fine', '2');").data

/-- A document with a song-name declaration and no statements. -/
def exC9 : Str := ("karaoke.songname := 'A'").data

/-- A document with a song name, a singer and no statements. -/
def exC10 : Str := ("karaoke.songname := 'T';").data

/-! Helper lemmas about stripping and searching. -/

theorem dropWhile_head_false {p : Char → Bool} {l r : Str} {c : Char}
    (h : l.dropWhile p = c :: r) : p c = false := by
  induction l with
  | nil => simp [List.dropWhile] at h
  | cons a t ih =>
    rw [List.dropWhile_cons] at h
    by_cases hp : p a = true
    · rw [if_pos hp] at h
      exact ih h
    · rw [if_neg hp] at h
      cases h
      simpa using hp

theorem dropWhile_eq_self_of_head {p : Char → Bool} {l : Str} {c : Char}
    (h : l.head? = some c) (hc : p c = false) : l.dropWhile p = l := by
  cases l with
  | nil => rfl
  | cons a t =>
    simp only [List.head?_cons, Option.some.injEq] at h
    subst h
    rw [List.dropWhile_cons, if_neg (by simp [hc])]

theorem dropTrailWS_eq_self {l : Str} {c : Char}
    (h : l.getLast? = some c) (hc : isPySpace c = false) : dropTrailWS l = l := by
  unfold dropTrailWS
  rw [dropWhile_eq_self_of_head (by rw [List.head?_reverse]; exact h) hc,
    List.reverse_reverse]

theorem pyStrip_eq_self {l : Str} {c d : Char}
    (h1 : l.head? = some c) (hc : isPySpace c = false)
    (h2 : l.getLast? = some d) (hd : isPySpace d = false) : pyStrip l = l := by
  unfold pyStrip
  rw [dropWhile_eq_self_of_head h1 hc, dropTrailWS_eq_self h2 hd]

theorem pyStrip_cons_space {c : Char} (hc : isPySpace c = true) (l : Str) :
    pyStrip (c :: l) = pyStrip l := by
  unfold pyStrip
  rw [List.dropWhile_cons, if_pos (by simp [hc])]

theorem dropWhile_decomp (p : Char → Bool) (l : Str) :
    ∃ u, l = u ++ l.dropWhile p :=
  ⟨l.takeWhile p, (List.takeWhile_append_dropWhile ..).symm⟩

theorem dropTrailWS_decomp (l : Str) : ∃ v, l = dropTrailWS l ++ v := by
  obtain ⟨u, hu⟩ := dropWhile_decomp isPySpace l.reverse
  refine ⟨u.reverse, ?_⟩
  unfold dropTrailWS
  calc l = l.reverse.reverse := (List.reverse_reverse l).symm
    _ = (u ++ l.reverse.dropWhile isPySpace).reverse := by rw [← hu]
    _ = (l.reverse.dropWhile isPySpace).reverse ++ u.reverse := by
        rw [List.reverse_append]

theorem pyStrip_middle (l : Str) : ∃ u v, l = u ++ pyStrip l ++ v := by
  obtain ⟨u, hu⟩ := dropWhile_decomp isPySpace l
  obtain ⟨v, hv⟩ := dropTrailWS_decomp (l.dropWhile isPySpace)
  refine ⟨u, v, ?_⟩
  simp only [pyStrip]
  calc l = u ++ l.dropWhile isPySpace := hu
    _ = u ++ (dropTrailWS (l.dropWhile isPySpace) ++ v) := by rw [← hv]
    _ = u ++ dropTrailWS (l.dropWhile isPySpace) ++ v := (List.append_assoc ..).symm

theorem pyStrip_head_not_space {l : Str} {c : Char} {r : Str}
    (h : pyStrip l = c :: r) : isPySpace c = false := by
  obtain ⟨v, hv⟩ := dropTrailWS_decomp (l.dropWhile isPySpace)
  rw [pyStrip] at h
  rw [h] at hv
  exact dropWhile_head_false (p := isPySpace) (l := l)
    (by rw [hv, List.cons_append])

theorem pyStrip_last_not_space {l : Str} {c : Char}
    (h : (pyStrip l).getLast? = some c) : isPySpace c = false := by
  rw [pyStrip, dropTrailWS, List.getLast?_reverse] at h
  obtain ⟨r, hr⟩ : ∃ r, ((l.dropWhile isPySpace).reverse.dropWhile isPySpace) = c :: r := by
    cases hh : (l.dropWhile isPySpace).reverse.dropWhile isPySpace with
    | nil => rw [hh] at h; simp at h
    | cons a t =>
      rw [hh] at h
      simp only [List.head?_cons, Option.some.injEq] at h
      subst h
      exact ⟨t, rfl⟩
  exact dropWhile_head_false hr

theorem rfindIdx_append (c : Char) (xs ys : Str) :
    rfindIdx c (xs ++ ys) =
      (match rfindIdx c ys with
       | some i => some (xs.length + i)
       | none => rfindIdx c xs) := by
  induction xs with
  | nil => cases h : rfindIdx c ys <;> simp [h, rfindIdx]
  | cons a t ih =>
    rw [List.cons_append, rfindIdx, ih]
    cases h : rfindIdx c ys with
    | none => rw [rfindIdx]
    | some i => simp only [List.length_cons, Nat.add_right_comm]

theorem rfindIdx_lt {c : Char} {l : Str} {i : Nat}
    (h : rfindIdx c l = some i) : i < l.length := by
  induction l generalizing i with
  | nil => simp [rfindIdx] at h
  | cons a t ih =>
    rw [rfindIdx] at h
    cases h2 : rfindIdx c t with
    | some j =>
      rw [h2] at h
      cases h
      exact Nat.succ_lt_succ (ih h2)
    | none =>
      rw [h2] at h
      by_cases ha : (a == c) = true
      · rw [if_pos ha] at h
        cases h
        simp
      · rw [if_neg ha] at h
        cases h

theorem rfindIdx_of_all_ne {c : Char} {l : Str}
    (h : ∀ x ∈ l, (x == c) = false) : rfindIdx c l = none := by
  induction l with
  | nil => rfl
  | cons a t ih =>
    rw [rfindIdx, ih fun x hx => h x (List.mem_cons_of_mem a hx),
      if_neg (by simp [h a (List.mem_cons_self a t)])]

theorem getD_append_last (xs : Str) (c d : Char) :
    (xs ++ [c]).getD xs.length d = c := by
  induction xs with
  | nil => rfl
  | cons a t ih => simp [List.getD_cons_succ, ih]

/-! Helper lemmas about the doubled-quote escape. -/

theorem replacePairs_cons_ne {q a : Char} (h : (a == q) = false) (l : Str) :
    replacePairs q (a :: l) = a :: replacePairs q l := by
  cases l with
  | nil => simp [replacePairs]
  | cons b r => simp [replacePairs, h]

theorem replacePairs_doubleQuote (q : Char) (s : Str) :
    replacePairs q (doubleQuote q s) = s := by
  induction s with
  | nil => rfl
  | cons a r ih =>
    cases ha : a == q with
    | true =>
      have haq : a = q := eq_of_beq ha
      subst haq
      simp [doubleQuote, replacePairs, ih]
    | false => simp [doubleQuote, ha, replacePairs_cons_ne ha, ih]

theorem noDoubled_cons (q a : Char) (l : Str) :
    noDoubled q (a :: l) = (!(a == q && l.head? == some q) && noDoubled q l) := by
  cases l with
  | nil => simp [noDoubled]
  | cons b r => simp [noDoubled]

theorem replacePairs_of_noDoubled {q : Char} {l : Str}
    (h : noDoubled q l = true) : replacePairs q l = l := by
  induction l with
  | nil => rfl
  | cons a t ih =>
    rw [noDoubled_cons, Bool.and_eq_true] at h
    obtain ⟨h1, h2⟩ := h
    cases t with
    | nil => rfl
    | cons b r =>
      have hb : (a == q && b == q) = false := by
        simp at h1 ⊢
        tauto
      simp [replacePairs, hb, ih h2]

theorem noDoubled_append_right {q : Char} {x y : Str}
    (h : noDoubled q (x ++ y) = true) : noDoubled q y = true := by
  induction x with
  | nil => exact h
  | cons a t ih =>
    rw [List.cons_append, noDoubled_cons, Bool.and_eq_true] at h
    exact ih h.2

theorem noDoubled_append_left {q : Char} {x y : Str}
    (h : noDoubled q (x ++ y) = true) : noDoubled q x = true := by
  induction x with
  | nil => simp [noDoubled]
  | cons a t ih =>
    rw [List.cons_append, noDoubled_cons, Bool.and_eq_true] at h
    obtain ⟨h1, h2⟩ := h
    rw [noDoubled_cons, Bool.and_eq_true]
    refine ⟨?_, ih h2⟩
    cases t with
    | nil => simp
    | cons b r =>
      simp at h1 ⊢
      tauto

theorem doubleQuote_eq_self {q : Char} {l : Str}
    (h : ∀ x ∈ l, (x == q) = false) : doubleQuote q l = l := by
  induction l with
  | nil => rfl
  | cons a t ih =>
    rw [doubleQuote, if_neg (by simp [h a (List.mem_cons_self a t)]),
      ih fun x hx => h x (List.mem_cons_of_mem a hx)]

theorem doubleQuote_head? (q : Char) (l : Str) :
    (doubleQuote q l).head? = l.head? := by
  cases l with
  | nil => rfl
  | cons a t =>
    cases ha : a == q with
    | true =>
      have : a = q := eq_of_beq ha
      subst this
      simp [doubleQuote]
    | false => simp [doubleQuote, ha]

theorem noDoubled_doubleQuote {q d : Char} (hne : (d == q) = false) {s : Str}
    (h : noDoubled q s = true) : noDoubled q (doubleQuote d s) = true := by
  induction s with
  | nil => simp [doubleQuote, noDoubled]
  | cons a t ih =>
    rw [noDoubled_cons, Bool.and_eq_true] at h
    obtain ⟨h1, h2⟩ := h
    cases ha : a == d with
    | true =>
      have : a = d := eq_of_beq ha
      subst this
      rw [doubleQuote, if_pos (beq_self_eq_true _)]
      simp [noDoubled_cons, hne, ih h2]
    | false =>
      rw [doubleQuote, if_neg (by simp [ha])]
      rw [noDoubled_cons, Bool.and_eq_true, doubleQuote_head?]
      exact ⟨h1, ih h2⟩

/-! Helper lemmas about quote characters and clean fields. -/

theorem quote_test_true {q : Char} (hq : q = sq ∨ q = dq) :
    (q == sq || q == dq) = true := by
  rcases hq with rfl | rfl <;> decide

theorem beq_symm_false {a b : Char} (h : (a == b) = false) : (b == a) = false := by
  rw [beq_eq_false_iff_ne] at h ⊢
  exact fun e => h e.symm

theorem fieldClean_no_quote {t : Str} (ht : fieldClean t = true) {q : Char}
    (hq : q = sq ∨ q = dq) : ∀ x ∈ t, (x == q) = false := by
  intro x hx
  have hall := List.all_eq_true.mp ht x hx
  simp only [Bool.not_eq_true', Bool.or_eq_false_iff] at hall
  rcases hq with rfl | rfl
  · exact hall.1.1
  · exact hall.1.2

theorem fieldClean_no_comma {t : Str} (ht : fieldClean t = true) :
    ∀ x ∈ t, (x == ',') = false := by
  intro x hx
  have hall := List.all_eq_true.mp ht x hx
  simp only [Bool.not_eq_true', Bool.or_eq_false_iff] at hall
  exact hall.2

theorem doubleQuote_clean {q : Char} (hq : q = sq ∨ q = dq) {t : Str}
    (ht : fieldClean t = true) : doubleQuote q t = t :=
  doubleQuote_eq_self (fieldClean_no_quote ht hq)

/-! Step lemmas for the comma scanner of the primary extraction. -/

theorem scanCommas_cons (c : Char) (rest : Str) (inq : Bool) (qc : Option Char)
    (i : Nat) (acc : List Nat) :
    scanCommas (c :: rest) inq qc i acc =
      (if c == sq || c == dq then
        if !inq then scanCommas rest true (some c) (i + 1) acc
        else if qc == some c then
          if rest.head? == some c then
            match rest with
            | _ :: rest2 => scanCommas rest2 true qc (i + 2) acc
            | [] => acc
          else scanCommas rest false none (i + 1) acc
        else scanCommas rest inq qc (i + 1) acc
      else if c == ',' && !inq then
        let acc2 := acc ++ [i]
        if 2 ≤ acc2.length then acc2 else scanCommas rest inq qc (i + 1) acc2
      else scanCommas rest inq qc (i + 1) acc) := by
  rw [scanCommas.eq_def]
  rfl

theorem comma_ne_sq : ((',' : Char) == sq) = false := by decide

theorem comma_ne_dq : ((',' : Char) == dq) = false := by decide

theorem space_ne_sq : ((' ' : Char) == sq) = false := by decide

theorem space_ne_dq : ((' ' : Char) == dq) = false := by decide

theorem space_ne_comma : ((' ' : Char) == ',') = false := by decide

theorem scanCommas_index_congr (rest : Str) (inq : Bool) (qc : Option Char)
    (acc : List Nat) {i j : Nat} (h : i = j) :
    scanCommas rest inq qc i acc = scanCommas rest inq qc j acc := by rw [h]

theorem scanCommas_open {q : Char} (hq : q = sq ∨ q = dq) (rest : Str)
    (i : Nat) (acc : List Nat) :
    scanCommas (q :: rest) false none i acc
      = scanCommas rest true (some q) (i + 1) acc := by
  rw [scanCommas_cons]
  simp [quote_test_true hq]

theorem scanCommas_close {q : Char} (hq : q = sq ∨ q = dq) {rest : Str}
    (hr : (rest.head? == some q) = false) (i : Nat) (acc : List Nat) :
    scanCommas (q :: rest) true (some q) i acc
      = scanCommas rest false none (i + 1) acc := by
  rw [scanCommas_cons]
  simp [quote_test_true hq, hr]

theorem scanCommas_esc {q : Char} (hq : q = sq ∨ q = dq) (rest2 : Str)
    (i : Nat) (acc : List Nat) :
    scanCommas (q :: q :: rest2) true (some q) i acc
      = scanCommas rest2 true (some q) (i + 2) acc := by
  rw [scanCommas_cons]
  simp [quote_test_true hq]

theorem scanCommas_inq_other {q a : Char} (ha : (a == q) = false)
    (rest : Str) (i : Nat) (acc : List Nat) :
    scanCommas (a :: rest) true (some q) i acc
      = scanCommas rest true (some q) (i + 1) acc := by
  rw [scanCommas_cons]
  have hqa : (some q == some a) = false := beq_symm_false ha
  by_cases h1 : (a == sq || a == dq) = true
  · simp [h1, hqa]
  · simp [Bool.not_eq_true] at h1
    simp [h1]

theorem scanCommas_out_other {a : Char} (h1 : (a == sq) = false)
    (h2 : (a == dq) = false) (h3 : (a == ',') = false)
    (rest : Str) (i : Nat) (acc : List Nat) :
    scanCommas (a :: rest) false none i acc
      = scanCommas rest false none (i + 1) acc := by
  rw [scanCommas_cons]
  simp [h1, h2, h3]

theorem scanCommas_comma_first (rest : Str) (i : Nat) :
    scanCommas (',' :: rest) false none i []
      = scanCommas rest false none (i + 1) [i] := by
  rw [scanCommas_cons]
  simp [comma_ne_sq, comma_ne_dq]

theorem scanCommas_comma_second (rest : Str) (i p : Nat) :
    scanCommas (',' :: rest) false none i [p] = [p, i] := by
  rw [scanCommas_cons]
  simp [comma_ne_sq, comma_ne_dq]

theorem scanCommas_through_body {q : Char} (hq : q = sq ∨ q = dq) (s : Str) :
    ∀ (rest : Str), (rest.head? == some q) = false → ∀ (i : Nat) (acc : List Nat),
    scanCommas (doubleQuote q s ++ q :: rest) true (some q) i acc
      = scanCommas rest false none (i + (doubleQuote q s).length + 1) acc := by
  induction s with
  | nil =>
    intro rest hr i acc
    simp only [doubleQuote, List.nil_append, List.length_nil, Nat.add_zero]
    exact scanCommas_close hq hr i acc
  | cons a t ih =>
    intro rest hr i acc
    cases ha : a == q with
    | true =>
      have haq : a = q := eq_of_beq ha
      subst haq
      rw [doubleQuote, if_pos (beq_self_eq_true _), List.cons_append,
        List.cons_append, scanCommas_esc hq, ih rest hr (i + 2) acc]
      exact scanCommas_index_congr _ _ _ _ (by simp [List.length_cons]; omega)
    | false =>
      rw [doubleQuote, if_neg (by simp [ha]), List.cons_append,
        scanCommas_inq_other ha, ih rest hr (i + 1) acc]
      exact scanCommas_index_congr _ _ _ _ (by simp [List.length_cons]; omega)

theorem scanCommas_field {q : Char} (hq : q = sq ∨ q = dq) (s : Str)
    {rest : Str} (hr : (rest.head? == some q) = false) (i : Nat) (acc : List Nat) :
    scanCommas (encField q s ++ rest) false none i acc
      = scanCommas rest false none (i + (doubleQuote q s).length + 2) acc := by
  have hsh : encField q s ++ rest = q :: (doubleQuote q s ++ (q :: rest)) := by
    simp [encField, wrapQ]
  rw [hsh, scanCommas_open hq, scanCommas_through_body hq s rest hr (i + 1) acc]
  exact scanCommas_index_congr _ _ _ _ (by omega)

theorem scanCommas_clean_field {q : Char} (hq : q = sq ∨ q = dq) {t : Str}
    (ht : fieldClean t = true) {rest : Str}
    (hr : (rest.head? == some q) = false) (i : Nat) (acc : List Nat) :
    scanCommas (wrapQ q t ++ rest) false none i acc
      = scanCommas rest false none (i + t.length + 2) acc := by
  have := scanCommas_field hq t hr i acc
  rwa [encField, doubleQuote_clean hq ht] at this

/-! Structure of well-formed parameter strings, and the primary
extraction on them. -/

theorem head_cons_ne_quote {q c : Char} (h : (c == q) = false) (x : Str) :
    ((List.head? (c :: x)) == some q) = false := by
  rw [List.head?_cons, show ((some c == some q) : Bool) = (c == q) from rfl, h]

theorem getLast?_append_wrapQ (A : Str) (q : Char) (b : Str) :
    (A ++ wrapQ q b).getLast? = some q := by
  have h : A ++ wrapQ q b = (A ++ (q :: b)) ++ [q] := by simp [wrapQ]
  rw [h, List.getLast?_concat]

theorem getLast?_wrapQ (q : Char) (b : Str) : (wrapQ q b).getLast? = some q := by
  have h := getLast?_append_wrapQ [] q b
  rwa [List.nil_append] at h

theorem head?_encField (q : Char) (s : Str) : (encField q s).head? = some q := by
  simp [encField, wrapQ]

theorem getLast?_encField (q : Char) (s : Str) :
    (encField q s).getLast? = some q := getLast?_wrapQ q _

theorem isPySpace_quote {q : Char} (hq : q = sq ∨ q = dq) : isPySpace q = false := by
  rcases hq with rfl | rfl <;> decide

theorem rfindIdx_singleton_self (c : Char) : rfindIdx c [c] = some 0 := by
  simp [rfindIdx]

theorem unquoteWith_encField {q : Char} (hq : q = sq ∨ q = dq) (s : Str) :
    unquoteWith (encField q s) = s := by
  have hhead : (encField q s).head? = some q := head?_encField q s
  have hlast : (encField q s).getLast? = some q := getLast?_encField q s
  have hlen : (encField q s).length = (doubleQuote q s).length + 2 := by
    simp [encField, wrapQ]
  have hinner : ((encField q s).drop 1).dropLast = doubleQuote q s := by
    show (doubleQuote q s ++ [q]).dropLast = doubleQuote q s
    rw [List.dropLast_concat]
  rcases hq with rfl | rfl
  · rw [unquoteWith, if_pos (by simp [hhead, hlast, hlen]), hinner,
      if_pos (by simp [hhead]), replacePairs_doubleQuote]
  · rw [unquoteWith, if_pos (by simp [hhead, hlast, hlen]), hinner,
      if_neg (by simp [hhead]; decide), replacePairs_doubleQuote]

theorem scanCommas_mkParams {qa qb qd q : Char} {t1 t2 idc s : Str}
    (hqa : qa = sq ∨ qa = dq) (hqb : qb = sq ∨ qb = dq)
    (h1 : fieldClean t1 = true) (h2 : fieldClean t2 = true) :
    scanCommas (mkParams qa qb qd q t1 t2 idc s) false none 0 []
      = [t1.length + 2, t1.length + t2.length + 6] := by
  have hr1 : ((List.head? (',' :: ' ' ::
      (wrapQ qb t2 ++ ',' :: ' ' :: (encField q s ++ ',' :: ' ' :: wrapQ qd idc))))
      == some qa) = false :=
    head_cons_ne_quote (by rcases hqa with rfl | rfl <;> decide) _
  have hr2 : ((List.head? (',' :: ' ' ::
      (encField q s ++ ',' :: ' ' :: wrapQ qd idc))) == some qb) = false :=
    head_cons_ne_quote (by rcases hqb with rfl | rfl <;> decide) _
  rw [mkParams, scanCommas_clean_field hqa h1 hr1]
  rw [scanCommas_comma_first]
  rw [scanCommas_out_other space_ne_sq space_ne_dq space_ne_comma]
  rw [scanCommas_clean_field hqb h2 hr2]
  rw [scanCommas_comma_second]
  simp
  omega

theorem extractThird_mkParams {qa qb qd q : Char} {t1 t2 idc s : Str}
    (hqa : qa = sq ∨ qa = dq) (hqb : qb = sq ∨ qb = dq)
    (hqd : qd = sq ∨ qd = dq) (hq : q = sq ∨ q = dq)
    (h1 : fieldClean t1 = true) (h2 : fieldClean t2 = true)
    (h3 : fieldClean idc = true) :
    extractThird (mkParams qa qb qd q t1 t2 idc s) = s := by
  have hqa' : isPySpace qa = false := isPySpace_quote hqa
  have hqd' : isPySpace qd = false := isPySpace_quote hqd
  have hq' : isPySpace q = false := isPySpace_quote hq
  have hstrip : pyStrip (mkParams qa qb qd q t1 t2 idc s)
      = mkParams qa qb qd q t1 t2 idc s := by
    apply pyStrip_eq_self (c := qa) (d := qd)
    · rw [mkParams]; simp [wrapQ]
    · exact hqa'
    · rw [mkParams]
      have hsh : wrapQ qa t1 ++ ',' :: ' ' :: (wrapQ qb t2 ++ ',' :: ' ' ::
            (encField q s ++ ',' :: ' ' :: wrapQ qd idc))
          = (wrapQ qa t1 ++ ',' :: ' ' :: (wrapQ qb t2 ++ ',' :: ' ' ::
            (encField q s ++ [',', ' ']))) ++ wrapQ qd idc := by
        simp
      rw [hsh, getLast?_append_wrapQ]
    · exact hqd'
  have hne : (mkParams qa qb qd q t1 t2 idc s).isEmpty = false := by
    rw [mkParams]; simp [wrapQ]
  have hscan := @scanCommas_mkParams qa qb qd q t1 t2 idc s hqa hqb h1 h2
  have hdrop : (mkParams qa qb qd q t1 t2 idc s).drop (t1.length + t2.length + 6 + 1)
      = ' ' :: (encField q s ++ ',' :: ' ' :: wrapQ qd idc) := by
    have hsh : mkParams qa qb qd q t1 t2 idc s
        = (wrapQ qa t1 ++ ',' :: ' ' :: (wrapQ qb t2 ++ [',']))
          ++ (' ' :: (encField q s ++ ',' :: ' ' :: wrapQ qd idc)) := by
      rw [mkParams]; simp
    have hlen : (wrapQ qa t1 ++ ',' :: ' ' :: (wrapQ qb t2 ++ [','])).length
        = t1.length + t2.length + 6 + 1 := by
      simp [wrapQ]; omega
    rw [hsh, ← hlen, List.drop_left]
  have hrem : pyStrip ((mkParams qa qb qd q t1 t2 idc s).drop
        (t1.length + t2.length + 6 + 1))
      = encField q s ++ ',' :: ' ' :: wrapQ qd idc := by
    rw [hdrop, pyStrip_cons_space (by decide)]
    apply pyStrip_eq_self (c := q) (d := qd)
    · simp [encField, wrapQ]
    · exact hq'
    · have hsh : encField q s ++ ',' :: ' ' :: wrapQ qd idc
          = (encField q s ++ [',', ' ']) ++ wrapQ qd idc := by simp
      rw [hsh, getLast?_append_wrapQ]
    · exact hqd'
  have hT2 : encField q s ++ ',' :: ' ' :: wrapQ qd idc
      = (encField q s ++ ',' :: ' ' :: (qd :: idc)) ++ [qd] := by
    simp [wrapQ]
  have hlenX : (encField q s ++ ',' :: ' ' :: (qd :: idc)).length
      = (encField q s).length + 3 + idc.length := by
    simp; omega
  have hTlen : (encField q s ++ ',' :: ' ' :: wrapQ qd idc).length
      = (encField q s).length + 3 + idc.length + 1 := by
    rw [hT2]; simp; omega
  have hrfd : rfindIdx qd (encField q s ++ ',' :: ' ' :: wrapQ qd idc)
      = some ((encField q s).length + 3 + idc.length) := by
    rw [hT2, rfindIdx_append, rfindIdx_singleton_self]
    simp [hlenX]
  have hcomb : combineMax
        (rfindIdx sq (encField q s ++ ',' :: ' ' :: wrapQ qd idc))
        (rfindIdx dq (encField q s ++ ',' :: ' ' :: wrapQ qd idc))
      = some ((encField q s).length + 3 + idc.length) := by
    rcases hqd with rfl | rfl
    · cases h : rfindIdx dq (encField q s ++ ',' :: ' ' :: wrapQ sq idc) with
      | none => rw [hrfd]; rfl
      | some j =>
        have hj := rfindIdx_lt h
        rw [hTlen] at hj
        rw [hrfd]
        simp [combineMax,
          Nat.max_eq_left (by omega : j ≤ (encField q s).length + 3 + idc.length)]
    · cases h : rfindIdx sq (encField q s ++ ',' :: ' ' :: wrapQ dq idc) with
      | none => rw [hrfd]; rfl
      | some j =>
        have hj := rfindIdx_lt h
        rw [hTlen] at hj
        rw [hrfd]
        simp [combineMax,
          Nat.max_eq_right (by omega : j ≤ (encField q s).length + 3 + idc.length)]
  have hqch : (encField q s ++ ',' :: ' ' :: wrapQ qd idc).getD
        ((encField q s).length + 3 + idc.length) ' ' = qd := by
    rw [hT2, ← hlenX, getD_append_last]
  have htake1 : (encField q s ++ ',' :: ' ' :: wrapQ qd idc).take
        ((encField q s).length + 3 + idc.length)
      = encField q s ++ ',' :: ' ' :: (qd :: idc) := by
    rw [hT2, ← hlenX, List.take_left]
  have hrf2 : rfindIdx qd (encField q s ++ ',' :: ' ' :: (qd :: idc))
      = some ((encField q s).length + 2) := by
    have hsh : encField q s ++ ',' :: ' ' :: (qd :: idc)
        = (encField q s ++ [',', ' ']) ++ (qd :: idc) := by simp
    have hid : rfindIdx qd idc = none :=
      rfindIdx_of_all_ne (fieldClean_no_quote h3 hqd)
    have hqd0 : rfindIdx qd (qd :: idc) = some 0 := by
      rw [rfindIdx, hid]; simp
    rw [hsh, rfindIdx_append, hqd0]
    simp
  have htake2 : (encField q s ++ ',' :: ' ' :: wrapQ qd idc).take
        ((encField q s).length + 2) = encField q s ++ [',', ' '] := by
    have hsh : encField q s ++ ',' :: ' ' :: wrapQ qd idc
        = (encField q s ++ [',', ' ']) ++ (qd :: (idc ++ [qd])) := by
      simp [wrapQ]
    have hlen2 : (encField q s ++ [',', ' ']).length = (encField q s).length + 2 := by
      simp
    rw [hsh, ← hlen2, List.take_left]
  have hrf3 : rfindIdx ',' (encField q s ++ [',', ' '])
      = some (encField q s).length := by
    have hcc : rfindIdx ',' ([',', ' '] : Str) = some 0 := by decide
    rw [rfindIdx_append, hcc]
    simp
  have htake3 : (encField q s ++ ',' :: ' ' :: wrapQ qd idc).take
        (encField q s).length = encField q s := by
    rw [show encField q s ++ ',' :: ' ' :: wrapQ qd idc
        = encField q s ++ (',' :: ' ' :: wrapQ qd idc) from rfl, List.take_left]
  have hstripE : pyStrip (encField q s) = encField q s :=
    pyStrip_eq_self (head?_encField q s) hq' (getLast?_encField q s) hq'
  simp only [extractThird]
  rw [hstrip, hne]
  simp only [Bool.false_eq_true, if_false]
  rw [hscan]
  simp only []
  rw [hrem, hcomb]
  simp only []
  rw [hqch, htake1, hrf2]
  simp only []
  rw [htake2, hrf3]
  simp only []
  rw [htake3, hstripE]
  exact unquoteWith_encField hq s

/-! Step lemmas for the fallback state machine, and the fallback
extraction on well-formed parameter strings. -/

theorem splitParams_nil (inq : Bool) (qc : Option Char) (cur : Str) (acc : List Str) :
    splitParams [] inq qc cur acc =
      if (pyStrip cur).isEmpty then acc else acc ++ [pyStrip cur] := by
  rw [splitParams.eq_def]

theorem splitParams_cons (c : Char) (rest : Str) (inq : Bool) (qc : Option Char)
    (cur : Str) (acc : List Str) :
    splitParams (c :: rest) inq qc cur acc =
      (if c == sq || c == dq then
        if !inq then splitParams rest true (some c) (cur ++ [c]) acc
        else if qc == some c then
          if rest.head? == some c then
            match rest with
            | _ :: rest2 => splitParams rest2 true qc (cur ++ [c, c]) acc
            | [] => acc
          else splitParams rest false none (cur ++ [c]) acc
        else splitParams rest inq qc (cur ++ [c]) acc
      else if c == ',' && !inq then
        splitParams rest inq qc [] (acc ++ [pyStrip cur])
      else splitParams rest inq qc (cur ++ [c]) acc) := by
  rw [splitParams.eq_def]
  rfl

theorem splitParams_congr (rest : Str) (inq : Bool) (qc : Option Char)
    {c1 c2 : Str} {a1 a2 : List Str} (hc : c1 = c2) (ha : a1 = a2) :
    splitParams rest inq qc c1 a1 = splitParams rest inq qc c2 a2 := by
  rw [hc, ha]

theorem splitParams_open {q : Char} (hq : q = sq ∨ q = dq) (rest : Str)
    (cur : Str) (acc : List Str) :
    splitParams (q :: rest) false none cur acc
      = splitParams rest true (some q) (cur ++ [q]) acc := by
  rw [splitParams_cons]
  simp [quote_test_true hq]

theorem splitParams_close {q : Char} (hq : q = sq ∨ q = dq) {rest : Str}
    (hr : (rest.head? == some q) = false) (cur : Str) (acc : List Str) :
    splitParams (q :: rest) true (some q) cur acc
      = splitParams rest false none (cur ++ [q]) acc := by
  rw [splitParams_cons]
  simp [quote_test_true hq, hr]

theorem splitParams_esc {q : Char} (hq : q = sq ∨ q = dq) (rest2 : Str)
    (cur : Str) (acc : List Str) :
    splitParams (q :: q :: rest2) true (some q) cur acc
      = splitParams rest2 true (some q) (cur ++ [q, q]) acc := by
  rw [splitParams_cons]
  simp [quote_test_true hq]

theorem splitParams_inq_other {q a : Char} (ha : (a == q) = false)
    (rest : Str) (cur : Str) (acc : List Str) :
    splitParams (a :: rest) true (some q) cur acc
      = splitParams rest true (some q) (cur ++ [a]) acc := by
  rw [splitParams_cons]
  have hqa : (some q == some a) = false := beq_symm_false ha
  by_cases h1 : (a == sq || a == dq) = true
  · simp [h1, hqa]
  · simp [Bool.not_eq_true] at h1
    simp [h1]

theorem splitParams_out_other {a : Char} (h1 : (a == sq) = false)
    (h2 : (a == dq) = false) (h3 : (a == ',') = false)
    (rest : Str) (cur : Str) (acc : List Str) :
    splitParams (a :: rest) false none cur acc
      = splitParams rest false none (cur ++ [a]) acc := by
  rw [splitParams_cons]
  simp [h1, h2, h3]

theorem splitParams_comma (rest : Str) (cur : Str) (acc : List Str) :
    splitParams (',' :: rest) false none cur acc
      = splitParams rest false none [] (acc ++ [pyStrip cur]) := by
  rw [splitParams_cons]
  simp [comma_ne_sq, comma_ne_dq]

theorem splitParams_through_body {q : Char} (hq : q = sq ∨ q = dq) (s : Str) :
    ∀ (rest : Str), (rest.head? == some q) = false → ∀ (cur : Str) (acc : List Str),
    splitParams (doubleQuote q s ++ q :: rest) true (some q) cur acc
      = splitParams rest false none (cur ++ doubleQuote q s ++ [q]) acc := by
  induction s with
  | nil =>
    intro rest hr cur acc
    simp only [doubleQuote, List.nil_append, List.append_nil]
    exact splitParams_close hq hr cur acc
  | cons a t ih =>
    intro rest hr cur acc
    cases ha : a == q with
    | true =>
      have haq : a = q := eq_of_beq ha
      subst haq
      rw [doubleQuote, if_pos (beq_self_eq_true _), List.cons_append,
        List.cons_append, splitParams_esc hq, ih rest hr (cur ++ [a, a]) acc]
      exact splitParams_congr _ _ _ (by simp) rfl
    | false =>
      rw [doubleQuote, if_neg (by simp [ha]), List.cons_append,
        splitParams_inq_other ha, ih rest hr (cur ++ [a]) acc]
      exact splitParams_congr _ _ _ (by simp) rfl

theorem splitParams_field {q : Char} (hq : q = sq ∨ q = dq) (s : Str)
    {rest : Str} (hr : (rest.head? == some q) = false) (cur : Str) (acc : List Str) :
    splitParams (encField q s ++ rest) false none cur acc
      = splitParams rest false none (cur ++ encField q s) acc := by
  have hsh : encField q s ++ rest = q :: (doubleQuote q s ++ (q :: rest)) := by
    simp [encField, wrapQ]
  rw [hsh, splitParams_open hq, splitParams_through_body hq s rest hr _ acc]
  exact splitParams_congr _ _ _ (by simp [encField, wrapQ]) rfl

theorem splitParams_clean_field {q : Char} (hq : q = sq ∨ q = dq) {t : Str}
    (ht : fieldClean t = true) {rest : Str}
    (hr : (rest.head? == some q) = false) (cur : Str) (acc : List Str) :
    splitParams (wrapQ q t ++ rest) false none cur acc
      = splitParams rest false none (cur ++ wrapQ q t) acc := by
  have := splitParams_field hq t hr cur acc
  rwa [encField, doubleQuote_clean hq ht] at this

theorem head?_wrapQ (q : Char) (b : Str) : (wrapQ q b).head? = some q := by
  simp [wrapQ]

theorem pyStrip_wrapQ {q : Char} (hq : q = sq ∨ q = dq) (b : Str) :
    pyStrip (wrapQ q b) = wrapQ q b :=
  pyStrip_eq_self (head?_wrapQ q b) (isPySpace_quote hq)
    (getLast?_wrapQ q b) (isPySpace_quote hq)

theorem pyStrip_encField {q : Char} (hq : q = sq ∨ q = dq) (s : Str) :
    pyStrip (encField q s) = encField q s :=
  pyStrip_eq_self (head?_encField q s) (isPySpace_quote hq)
    (getLast?_encField q s) (isPySpace_quote hq)

theorem splitParams_mkParams {qa qb qd q : Char} {t1 t2 idc s : Str}
    (hqa : qa = sq ∨ qa = dq) (hqb : qb = sq ∨ qb = dq)
    (hqd : qd = sq ∨ qd = dq) (hq : q = sq ∨ q = dq)
    (h1 : fieldClean t1 = true) (h2 : fieldClean t2 = true)
    (h3 : fieldClean idc = true) :
    splitParams (mkParams qa qb qd q t1 t2 idc s) false none [] []
      = [wrapQ qa t1, wrapQ qb t2, encField q s, wrapQ qd idc] := by
  have hr1 : ((List.head? (',' :: ' ' ::
      (wrapQ qb t2 ++ ',' :: ' ' :: (encField q s ++ ',' :: ' ' :: wrapQ qd idc))))
      == some qa) = false :=
    head_cons_ne_quote (by rcases hqa with rfl | rfl <;> decide) _
  have hr2 : ((List.head? (',' :: ' ' ::
      (encField q s ++ ',' :: ' ' :: wrapQ qd idc))) == some qb) = false :=
    head_cons_ne_quote (by rcases hqb with rfl | rfl <;> decide) _
  have hr3 : ((List.head? (',' :: ' ' :: wrapQ qd idc)) == some q) = false :=
    head_cons_ne_quote (by rcases hq with rfl | rfl <;> decide) _
  have hr4 : ((List.head? ([] : Str)) == some qd) = false := by simp
  rw [mkParams, splitParams_clean_field hqa h1 hr1]
  rw [splitParams_congr _ _ _ (List.nil_append _) rfl, splitParams_comma]
  rw [splitParams_congr _ _ _ rfl
    (by rw [List.nil_append, pyStrip_wrapQ hqa] :
      ([] : List Str) ++ [pyStrip (wrapQ qa t1)] = [wrapQ qa t1])]
  rw [splitParams_out_other space_ne_sq space_ne_dq space_ne_comma]
  rw [splitParams_clean_field hqb h2 hr2]
  rw [splitParams_comma]
  rw [splitParams_congr _ _ _ rfl
    (by rw [show ([] : Str) ++ [' '] ++ wrapQ qb t2 = ' ' :: wrapQ qb t2 by simp,
          pyStrip_cons_space (by decide), pyStrip_wrapQ hqb]
        rfl :
      [wrapQ qa t1] ++ [pyStrip (([] : Str) ++ [' '] ++ wrapQ qb t2)]
        = [wrapQ qa t1, wrapQ qb t2])]
  rw [splitParams_out_other space_ne_sq space_ne_dq space_ne_comma]
  rw [splitParams_field hq s hr3]
  rw [splitParams_comma]
  rw [splitParams_congr _ _ _ rfl
    (by rw [show ([] : Str) ++ [' '] ++ encField q s = ' ' :: encField q s by simp,
          pyStrip_cons_space (by decide), pyStrip_encField hq]
        rfl :
      [wrapQ qa t1, wrapQ qb t2] ++ [pyStrip (([] : Str) ++ [' '] ++ encField q s)]
        = [wrapQ qa t1, wrapQ qb t2, encField q s])]
  rw [splitParams_out_other space_ne_sq space_ne_dq space_ne_comma]
  conv_lhs => rw [show wrapQ qd idc = wrapQ qd idc ++ []
    from (List.append_nil _).symm]
  rw [splitParams_clean_field hqd h3 hr4]
  rw [splitParams_nil]
  rw [show ([] : Str) ++ [' '] ++ wrapQ qd idc = ' ' :: wrapQ qd idc by simp]
  rw [pyStrip_cons_space (by decide), pyStrip_wrapQ hqd]
  rw [show (wrapQ qd idc).isEmpty = false by simp [wrapQ]]
  simp

theorem extractFallback_mkParams {qa qb qd q : Char} {t1 t2 idc s : Str}
    (hqa : qa = sq ∨ qa = dq) (hqb : qb = sq ∨ qb = dq)
    (hqd : qd = sq ∨ qd = dq) (hq : q = sq ∨ q = dq)
    (h1 : fieldClean t1 = true) (h2 : fieldClean t2 = true)
    (h3 : fieldClean idc = true)
    (hnd : noDoubled (otherQuote q) s = true) :
    extractFallback (mkParams qa qb qd q t1 t2 idc s) = s := by
  have hsplit := @splitParams_mkParams qa qb qd q t1 t2 idc s hqa hqb hqd hq h1 h2 h3
  have hstripE := pyStrip_encField hq s
  have hinner : ((encField q s).drop 1).dropLast = doubleQuote q s := by
    show (doubleQuote q s ++ [q]).dropLast = doubleQuote q s
    rw [List.dropLast_concat]
  have hstep : extractFallback (mkParams qa qb qd q t1 t2 idc s)
      = (if ((pyStrip (encField q s)).head? == some sq
            && (pyStrip (encField q s)).getLast? == some sq)
          || ((pyStrip (encField q s)).head? == some dq
            && (pyStrip (encField q s)).getLast? == some dq) then
          replacePairs dq (replacePairs sq
            (((pyStrip (encField q s)).drop 1).dropLast))
        else pyStrip (encField q s)) := by
    unfold extractFallback
    rw [hsplit]
  rw [hstep, hstripE]
  rcases hq with rfl | rfl
  · have hoq : otherQuote sq = dq := by decide
    rw [hoq] at hnd
    rw [if_pos (by rw [head?_encField, getLast?_encField]; decide)]
    rw [hinner, replacePairs_doubleQuote]
    exact replacePairs_of_noDoubled hnd
  · have hoq : otherQuote dq = sq := by decide
    rw [hoq] at hnd
    rw [if_pos (by rw [head?_encField, getLast?_encField]; decide)]
    rw [hinner]
    rw [replacePairs_of_noDoubled (noDoubled_doubleQuote (by decide) hnd)]
    exact replacePairs_doubleQuote dq s

/-! Lemmas for the statement extractor. -/

theorem dropKey_eq_append {pat l r : Str} (h : dropKey pat l = some r) :
    l = pat ++ r := by
  induction pat generalizing l with
  | nil =>
    rw [dropKey] at h
    cases h
    rfl
  | cons p ps ih =>
    cases l with
    | nil => cases h
    | cons c cs =>
      rw [dropKey] at h
      by_cases hc : (c == p) = true
      · rw [if_pos hc] at h
        have hps := ih h
        have hcp : c = p := eq_of_beq hc
        subst hcp
        rw [List.cons_append, ← hps]
      · rw [if_neg hc] at h
        cases h

theorem dropKey_self_append (pat z : Str) : dropKey pat (pat ++ z) = some z := by
  induction pat with
  | nil => rfl
  | cons p ps ih => simp [dropKey, ih]

theorem splitAtSub_eq {pat : Str} :
    ∀ {l b a : Str}, splitAtSub pat l = some (b, a) → l = b ++ pat ++ a := by
  intro l
  induction l with
  | nil => intro b a h; cases h
  | cons c rest ih =>
    intro b a h
    rw [splitAtSub] at h
    cases hd : dropKey pat (c :: rest) with
    | some after =>
      rw [hd] at h
      cases h
      simpa using dropKey_eq_append hd
    | none =>
      rw [hd] at h
      cases hs : splitAtSub pat rest with
      | none => rw [hs] at h; cases h
      | some pr =>
        obtain ⟨b2, a2⟩ := pr
        rw [hs] at h
        cases h
        have := ih hs
        simp [this]

theorem dropKey_none_of_append {pat x y : Str} (h : dropKey pat (x ++ y) = none) :
    dropKey pat x = none := by
  cases hd : dropKey pat x with
  | none => rfl
  | some r =>
    rw [dropKey_eq_append hd, List.append_assoc, dropKey_self_append] at h
    cases h

theorem splitAtSub_before_free {pat : Str} (hne : pat ≠ []) :
    ∀ {l b a : Str}, splitAtSub pat l = some (b, a) → containsSub pat b = false := by
  intro l
  induction l with
  | nil => intro b a h; cases h
  | cons c rest ih =>
    intro b a h
    rw [splitAtSub] at h
    cases hd : dropKey pat (c :: rest) with
    | some after =>
      rw [hd] at h
      cases h
      cases pat with
      | nil => exact absurd rfl hne
      | cons p ps => rfl
    | none =>
      rw [hd] at h
      cases hs : splitAtSub pat rest with
      | none => rw [hs] at h; cases h
      | some pr =>
        obtain ⟨b2, a2⟩ := pr
        rw [hs] at h
        cases h
        rw [containsSub, ih hs, Bool.or_false]
        have hsh : c :: rest = (c :: b2) ++ (pat ++ a) := by
          rw [splitAtSub_eq hs]; simp
        rw [hsh] at hd
        rw [dropKey_none_of_append hd]
        rfl

theorem findAddsAux_caps_free : ∀ (fuel : Nat) (l : Str),
    (findAddsAux fuel l).all (fun cap => !containsSub closeKey cap) = true := by
  intro fuel
  induction fuel with
  | zero => intro l; rfl
  | succ n ih =>
    intro l
    cases l with
    | nil => rfl
    | cons c rest =>
      rw [findAddsAux]
      cases ht : tryAdd (c :: rest) with
      | none => exact ih rest
      | some pr =>
        obtain ⟨cap, rest2⟩ := pr
        rw [List.all_cons, Bool.and_eq_true]
        refine ⟨?_, ih rest2⟩
        unfold tryAdd at ht
        split at ht
        · simp at ht
        · split at ht
          · split at ht
            · rw [splitAtSub_before_free (by decide) ht]
              rfl
            · simp at ht
          · simp at ht

theorem findAddsAux_of_no_add : ∀ (fuel : Nat) {l : Str},
    containsSub addKey l = false → findAddsAux fuel l = [] := by
  intro fuel
  induction fuel with
  | zero => intro l _; rfl
  | succ n ih =>
    intro l hl
    cases l with
    | nil => rfl
    | cons c rest =>
      rw [containsSub, Bool.or_eq_false_iff] at hl
      have ht : tryAdd (c :: rest) = none := by
        unfold tryAdd
        cases hd : dropKey addKey (c :: rest) with
        | none => rfl
        | some r1 => rw [hd] at hl; simp at hl
      rw [findAddsAux, ht]
      exact ih hl.2

/-! Lemmas for the statement loop of `parse_content`. -/

theorem addLoop_eq_filterMap (ps : List Str) : addLoop ps = ps.filterMap lyricOf := by
  induction ps with
  | nil => rfl
  | cons p rest ih =>
    rw [addLoop, List.filterMap_cons]
    simp only [lyricOf]
    by_cases h1 : (extractThird p).isEmpty = true
    · simp [h1, ih]
    · rw [Bool.not_eq_true] at h1
      by_cases h2 : (cleanLyric (extractThird p)).isEmpty = true
      · simp [h1, h2, ih]
      · rw [Bool.not_eq_true] at h2
        simp [h1, h2, ih]

theorem addLoop_no_empty (ps : List Str) :
    (addLoop ps).all (fun l => !l.isEmpty) = true := by
  induction ps with
  | nil => rfl
  | cons p rest ih =>
    rw [addLoop]
    by_cases h1 : (extractThird p).isEmpty = true
    · simp [h1, ih]
    · rw [Bool.not_eq_true] at h1
      by_cases h2 : (cleanLyric (extractThird p)).isEmpty = true
      · simp [h1, h2, ih]
      · rw [Bool.not_eq_true] at h2
        simp [h1, h2, ih]

/-! Lemmas for the metadata search. -/

theorem searchMeta_eq_firstMetaHit (key : Str) (l : Str) :
    searchMeta key l = firstMetaHit key l := by
  induction l with
  | nil =>
    rw [searchMeta, firstMetaHit]
    have hr1 : List.range (([] : Str).length + 1) = [0] := by decide
    rw [hr1, List.filterMap_cons]
    simp only [List.drop_zero]
    cases h : metaAt key [] with
    | none => rfl
    | some v => rfl
  | cons c rest ih =>
    have hrange : List.range ((c :: rest).length + 1)
        = 0 :: (List.range (rest.length + 1)).map Nat.succ := by
      rw [List.length_cons, List.range_succ_eq_map]
    have hcomp : ((fun p => metaAt key ((c :: rest).drop p)) ∘ Nat.succ)
        = fun p => metaAt key (rest.drop p) := by
      funext p
      simp [List.drop_succ_cons]
    rw [searchMeta, firstMetaHit, hrange, List.filterMap_cons]
    cases h : metaAt key (c :: rest) with
    | some v => simp [h]
    | none =>
      simp only [List.drop_zero, h, List.filterMap_map, hcomp]
      rw [ih, firstMetaHit]

/-! Lemmas for the whitespace normalizer. -/

theorem not_space_beq_false {c : Char} (hc : isPySpace c = false) :
    (c == ' ') = false := by
  cases h : c == ' ' with
  | false => rfl
  | true =>
    have : c = ' ' := eq_of_beq h
    subst this
    exact absurd hc (by decide)

theorem collapseAux_all_space (l : Str) :
    ∀ (prev : Bool), wsOnlySpace (collapseAux prev l) = true := by
  induction l with
  | nil => intro prev; rfl
  | cons c rest ih =>
    intro prev
    rw [collapseAux]
    by_cases hc : isPySpace c = true
    · rw [if_pos hc]
      cases prev
      · simp only [Bool.false_eq_true, if_false]
        rw [wsOnlySpace, List.all_cons, Bool.and_eq_true]
        exact ⟨by decide, ih true⟩
      · exact ih true
    · rw [if_neg hc]
      rw [wsOnlySpace, List.all_cons, Bool.and_eq_true]
      refine ⟨?_, ih false⟩
      rw [Bool.not_eq_true] at hc
      simp [hc]

theorem collapseAux_true_head :
    ∀ {l : Str} {c : Char} {r : Str},
    collapseAux true l = c :: r → (c == ' ') = false := by
  intro l
  induction l with
  | nil => intro c r h; cases h
  | cons a rest ih =>
    intro c r h
    rw [collapseAux] at h
    by_cases ha : isPySpace a = true
    · rw [if_pos ha, if_pos rfl] at h
      exact ih h
    · rw [if_neg ha] at h
      cases h
      rw [Bool.not_eq_true] at ha
      exact not_space_beq_false ha

theorem collapseAux_noDoubled (l : Str) :
    ∀ (prev : Bool), noDoubled ' ' (collapseAux prev l) = true := by
  induction l with
  | nil => intro prev; rfl
  | cons c rest ih =>
    intro prev
    rw [collapseAux]
    by_cases hc : isPySpace c = true
    · rw [if_pos hc]
      cases prev
      · simp only [Bool.false_eq_true, if_false]
        rw [noDoubled_cons, Bool.and_eq_true]
        refine ⟨?_, ih true⟩
        cases hh : collapseAux true rest with
        | nil => simp
        | cons d r2 =>
          have hd := collapseAux_true_head hh
          simp [hd]
      · exact ih true
    · rw [if_neg hc]
      rw [noDoubled_cons, Bool.and_eq_true]
      refine ⟨?_, ih false⟩
      rw [Bool.not_eq_true] at hc
      simp [not_space_beq_false hc]

theorem wsOnlySpace_middle {u m v : Str}
    (h : wsOnlySpace (u ++ m ++ v) = true) : wsOnlySpace m = true := by
  rw [wsOnlySpace, List.all_append, List.all_append, Bool.and_eq_true,
    Bool.and_eq_true] at h
  exact h.1.2

theorem cleanLyric_ws (s : Str) :
    wsOnlySpace (cleanLyric s) = true
    ∧ noDoubled ' ' (cleanLyric s) = true
    ∧ ((cleanLyric s).head? == some ' ') = false
    ∧ ((cleanLyric s).getLast? == some ' ') = false := by
  obtain ⟨u, v, huv⟩ := pyStrip_middle (collapseWS (removeBrackets s))
  have hws : wsOnlySpace (collapseWS (removeBrackets s)) = true :=
    collapseAux_all_space _ false
  have hnd : noDoubled ' ' (collapseWS (removeBrackets s)) = true :=
    collapseAux_noDoubled _ false
  rw [huv] at hws hnd
  refine ⟨wsOnlySpace_middle hws, ?_, ?_, ?_⟩
  · exact noDoubled_append_right (noDoubled_append_left hnd)
  · cases hh : pyStrip (collapseWS (removeBrackets s)) with
    | nil => rw [cleanLyric, hh]; rfl
    | cons c r =>
      rw [cleanLyric, hh]
      simp [not_space_beq_false (pyStrip_head_not_space hh)]
  · cases hh : (pyStrip (collapseWS (removeBrackets s))).getLast? with
    | none => rw [cleanLyric, hh]; rfl
    | some c =>
      rw [cleanLyric, hh]
      simp [not_space_beq_false (pyStrip_last_not_space hh)]

/-! Lemmas for the formatter. -/

theorem intercalate_singleton (sep a : Str) : List.intercalate sep [a] = a := by
  simp [List.intercalate, List.intersperse]

theorem intercalate_pair (sep a b : Str) :
    List.intercalate sep [a, b] = a ++ sep ++ b := by
  simp [List.intercalate, List.intersperse]

theorem intercalate_nil (sep : Str) : List.intercalate sep [] = [] := by
  simp [List.intercalate, List.intersperse]

/-! The claims. -/

/-- C1, counterexample: the parameter string
`'00:00.000', '00:01.000', 'a""b', '1'` is well-formed (timestamps and id
quoted and clean, lyric field quoted in single quotes with the doubled
double-quote as plain literal content), yet the primary positional scan
returns `a""b` while the state-machine fallback, which un-escapes doubled
quotes of both kinds, returns `a"b`: the two strategies do not agree. -/
theorem claim1_counterexample :
    extractThird exBad = ("a\"\"b").data
    ∧ extractFallback exBad = ("a\"b").data
    ∧ extractThird exBad ≠ extractFallback exBad := by
  refine ⟨by decide, by decide, by decide⟩

/-- C1, amended: for every well-formed parameter string
`<t1>, <t2>, <quoted lyric>, <id>` whose timestamps and id are quoted and
contain no quotes or commas, and whose decoded lyric text contains no
doubled occurrence of the non-enclosing quote character, the primary
positional scan and the state-machine fallback agree, both returning the
unquoted, un-escaped third field. -/
theorem claim1_agreement {qa qb qd q : Char} {t1 t2 idc s : Str}
    (hqa : qa = sq ∨ qa = dq) (hqb : qb = sq ∨ qb = dq)
    (hqd : qd = sq ∨ qd = dq) (hq : q = sq ∨ q = dq)
    (h1 : fieldClean t1 = true) (h2 : fieldClean t2 = true)
    (h3 : fieldClean idc = true)
    (hnd : noDoubled (otherQuote q) s = true) :
    extractThird (mkParams qa qb qd q t1 t2 idc s) = s
    ∧ extractFallback (mkParams qa qb qd q t1 t2 idc s) = s :=
  ⟨extractThird_mkParams hqa hqb hqd hq h1 h2 h3,
   extractFallback_mkParams hqa hqb hqd hq h1 h2 h3 hnd⟩

/-- C1, witness: the amended agreement at the specification's concrete
input `'00:00.000', '00:01.000', 'text, with comma', '1'`. -/
theorem claim1_agreement_witness :
    extractThird (mkParams sq sq sq sq (("00:00.000").data) (("00:01.000").data)
      (("1").data) (("text, with comma").data)) = ("text, with comma").data
    ∧ extractFallback (mkParams sq sq sq sq (("00:00.000").data) (("00:01.000").data)
      (("1").data) (("text, with comma").data)) = ("text, with comma").data :=
  claim1_agreement (Or.inl rfl) (Or.inl rfl) (Or.inl rfl) (Or.inl rfl)
    (by decide) (by decide) (by decide) (by decide)

/-- C2: round-trip quoting.  For every lyric string containing its
enclosing quote character, encoding it by doubling each occurrence of
that character and wrapping it in that character, placing it as the third
field of a well-formed parameter string, and extracting the third
parameter yields back the original string: the extractor strips the
outer quote pair and un-escapes every doubled enclosing quote. -/
theorem claim2_roundtrip {qa qb qd q : Char} {t1 t2 idc s : Str}
    (hqa : qa = sq ∨ qa = dq) (hqb : qb = sq ∨ qb = dq)
    (hqd : qd = sq ∨ qd = dq) (hq : q = sq ∨ q = dq)
    (h1 : fieldClean t1 = true) (h2 : fieldClean t2 = true)
    (h3 : fieldClean idc = true)
    (_hmem : s.contains q = true) :
    extractThird (mkParams qa qb qd q t1 t2 idc s) = s :=
  extractThird_mkParams hqa hqb hqd hq h1 h2 h3

/-- C2, witness: the round trip at the specification's example, the lyric
text containing a literal apostrophe, encoded as a doubled single quote
inside a single-quoted field. -/
theorem claim2_roundtrip_witness :
    extractThird (mkParams sq sq sq sq (("00:00.000").data) (("00:01.000").data)
      (("1").data) (("it's here").data)) = ("it's here").data :=
  claim2_roundtrip (Or.inl rfl) (Or.inl rfl) (Or.inl rfl) (Or.inl rfl)
    (by decide) (by decide) (by decide) (by decide)

/-- C3, counterexample: in the document `exC3` the first statement is
missing the closing quote of its third field; the claim predicts that
this statement contributes no lyric line, so that the document's lines
would be exactly the ones of the well-formed second statement — but they
are not. -/
theorem claim3_counterexample : (parseContent exC3).lyrics ≠ [("next").data] := by
  decide

/-- C3, amended: a statement whose third field is missing its closing
quote does not make parsing fail; the field is handled best-effort (here
the primary scan returns the field verbatim, unmatched opening quote
included, without falling through to the fallback) so the statement may
still contribute a garbled lyric line, and all subsequent statements are
parsed normally. -/
theorem claim3_amended :
    (parseContent exC3).lyrics = [("'text").data, ("next").data] := by
  decide

/-- C4: the raw statements are the non-overlapping matches of
`karaoke.add`, optional whitespace, `(`, capturing the shortest run of
characters up to the next `);` (the delimiter excluded): no capture ever
contains the delimiter, and in `exC4`, whose first lyric payload contains
a literal `);`, the first statement is truncated at that point while the
following statement is still captured in full. -/
theorem claim4_statements :
    (∀ (fuel : Nat) (l : Str),
      (findAddsAux fuel l).all (fun cap => !containsSub closeKey cap) = true)
    ∧ findAdds exC4 = [("'a', 'b', 'x").data, ("'c', 'd', 'y', '2'").data] :=
  ⟨findAddsAux_caps_free, by decide⟩

/-- C5: the lines are exactly the per-statement contributions in source
order (the statement loop equals a filterMap over the statement list, so
a statement with an empty extraction or an extraction that is empty after
normalization contributes no entry), no empty string ever appears among
the lines, and the three-statement document preserves source order. -/
theorem claim5_lines :
    (∀ content : Str,
      (parseContent content).lyrics = (findAdds content).filterMap lyricOf)
    ∧ (∀ content : Str,
      ((parseContent content).lyrics.all fun l => !l.isEmpty) = true)
    ∧ (parseContent exC5).lyrics = [("one").data, ("two").data, ("three").data] :=
  ⟨fun _ => addLoop_eq_filterMap _, fun _ => addLoop_no_empty _, by decide⟩

/-- C6: songname and singer are the captures of the first position at
which the metadata pattern (key, optional whitespace, `:=`, optional
whitespace, a quote character, then the shortest run of non-newline
characters up to the next quote character) matches; later redeclarations
are ignored and absence of a match leaves the field `none`. -/
theorem claim6_first_match :
    (∀ content : Str,
      (parseContent content).songname = firstMetaHit snKey content
      ∧ (parseContent content).singer = firstMetaHit sgKey content)
    ∧ (parseContent exC6).songname = some (("First").data)
    ∧ (parseContent (("no declarations here").data)).songname = none
    ∧ (parseContent (("no declarations here").data)).singer = none :=
  ⟨fun _ => ⟨searchMeta_eq_firstMetaHit _ _, searchMeta_eq_firstMetaHit _ _⟩,
   by decide, by decide, by decide⟩

/-- C7: the lyric normalizer replaces bracketed spans by their content,
collapses whitespace runs to single spaces and trims the ends: the three
specification examples hold, and for every input the result contains no
whitespace other than plain spaces, never two adjacent spaces, and no
space at either end. -/
theorem claim7_clean :
    cleanLyric (("[hello] world").data) = ("hello world").data
    ∧ cleanLyric (("[]").data) = []
    ∧ cleanLyric (("a   b\n\tc").data) = ("a b c").data
    ∧ (∀ s : Str, wsOnlySpace (cleanLyric s) = true
        ∧ noDoubled ' ' (cleanLyric s) = true
        ∧ ((cleanLyric s).head? == some ' ') = false
        ∧ ((cleanLyric s).getLast? == some ' ') = false) :=
  ⟨by decide, by decide, by decide, cleanLyric_ws⟩

/-- C8: the formatter on the specification's end-to-end document: with a
header, multi-line mode puts each lyric on its own line after
`# Title - Artist` with no trailing newline, single-line mode joins the
lyrics with spaces into one line after the header, without the header
only the lyric lines are emitted, and a document with only a singer gets
the header `# Artist` with no separator. -/
theorem claim8_totext :
    toText (parseContent exC8) true false
      = ("# Title - Artist\nHello world\nit's fine").data
    ∧ toText (parseContent exC8) true true
      = ("# Title - Artist\nHello world it's fine").data
    ∧ toText (parseContent exC8) false false = ("Hello world\nit's fine").data
    ∧ toText (parseContent (("karaoke.singer := 'Artist';").data)) true false
      = ("# Artist").data :=
  ⟨by decide, by decide, by decide, by decide⟩

/-- C9, counterexample: the document `karaoke.songname := 'A'` contains
zero occurrences of `karaoke.add`, yet it parses with songname `A`: a
zero-statement document does not in general have `songname = None`. -/
theorem claim9_counterexample :
    containsSub addKey exC9 = false
    ∧ (parseContent exC9).songname = some (("A").data)
    ∧ (parseContent exC9).songname ≠ none := by
  refine ⟨by decide, by decide, by decide⟩

/-- C9, amended: parsing never fails (the embedded `parse_content` is a
total function); an empty document parses with no songname, no singer and
no lines; and every document with zero `karaoke.add` occurrences parses
with `lines = []` — absence of matches yields empty results, while the
metadata fields still reflect any declarations of their own. -/
theorem claim9_amended :
    (parseContent []).songname = none
    ∧ (parseContent []).singer = none
    ∧ (parseContent []).lyrics = []
    ∧ (∀ content : Str, containsSub addKey content = false →
        (parseContent content).lyrics = []) := by
  refine ⟨by decide, by decide, rfl, fun content h => ?_⟩
  show addLoop (findAdds content) = []
  rw [findAdds, findAddsAux_of_no_add _ h]
  rfl

/-- C9, witness: the amended statement applied to a concrete document
with zero `karaoke.add` occurrences. -/
theorem claim9_amended_witness :
    containsSub addKey (("hello world").data) = false
    ∧ (parseContent (("hello world").data)).lyrics = [] :=
  ⟨by decide, claim9_amended.2.2.2 (("hello world").data) (by decide)⟩

/-- C10: for every parsed document with zero lyric lines but a truthy
songname or singer, single-line mode still appends the empty joined
lyric string as a line, so the output is the header followed by a
newline — it ends with a newline character, unlike multi-line mode which
returns the header alone; concretely for `karaoke.songname := 'T';`. -/
theorem claim10_trailing :
    (∀ d : LyricDoc, d.lyrics = [] →
      (optTruthy d.songname || optTruthy d.singer) = true →
      toText d true true = toText d true false ++ ['\n']
        ∧ (toText d true true).getLast? = some '\n')
    ∧ toText (parseContent exC10) true true = ("# T\n").data
    ∧ toText (parseContent exC10) true false = ("# T").data := by
  refine ⟨?_, by decide, by decide⟩
  intro d hlyr htr
  simp only [toText, hlyr, htr, Bool.true_and, if_true, intercalate_nil,
    List.isEmpty_cons, Bool.false_eq_true, if_false, List.append_nil,
    List.cons_append, List.nil_append]
  rw [intercalate_pair, intercalate_singleton]
  exact ⟨by simp, by rw [List.append_nil, List.getLast?_concat]⟩

/-- C10, witness: the general statement applied to the parse of
`karaoke.songname := 'T';`. -/
theorem claim10_trailing_witness :
    toText (parseContent exC10) true true
      = toText (parseContent exC10) true false ++ ['\n']
    ∧ (toText (parseContent exC10) true true).getLast? = some '\n' :=
  claim10_trailing.1 (parseContent exC10) (by decide) (by decide)

end LyricConv
